import Mathlib

/-!
Verification of the devinfo-rs core against its specification.

The development shallowly embeds the Rust sources:

* `src/lib.rs` — the snapshot walkers (`NodeWalk`, `DriverWalk`,
  `PropertyWalk`, `MinorWalk`), the typed property decoder (`Property`),
  the minor spec-type decoder (`Minor::spec_type`), the parent lookup
  (`Node::parent`) and the device-link accumulator
  (`devlink_accumulate` / `DevLinks::links_for_path`);
* `src/dim.rs` — the instance translator (`DevInstMinor::lookup_disk_name`).

The external device tree reached through `di_child_node`, `di_sibling_node`
and `di_parent_node` is modelled as a finite rose tree (`DTree`), with a node
identified by the reversed list of child indices from the root (`RPath`,
innermost index first, so the root is `[]` and the parent is the tail).
Other foreign calls are modelled as explicit environments recording what the
OS returns.  Rust panics are modelled as `Option.none` results of the
corresponding Lean functions.
-/

mutual
/-- The externally owned device tree: each node has an ordered forest of
children (first-child / next-sibling structure). -/
inductive DTree : Type where
  | node : DForest → DTree

/-- An ordered sibling chain of device-tree nodes. -/
inductive DForest : Type where
  | nil : DForest
  | cons : DTree → DForest → DForest
end

/-- A node of the tree, identified by the reversed list of child indices
from the root: the root is `[]`, and `i :: p` is child number `i` of `p`. -/
abbrev RPath := List Nat

/-- Child number `n` of a forest, mirroring indexed access into the
sibling chain. -/
def DForest.get? : DForest → Nat → Option DTree
  | .nil, _ => none
  | .cons t _, 0 => some t
  | .cons _ f, n + 1 => f.get? n

/-- The children of a node. -/
def DTree.kids : DTree → DForest
  | .node f => f

/-- Length of a sibling chain. -/
def DForest.sizeF : DForest → Nat
  | .nil => 0
  | .cons _ f => 1 + f.sizeF

/-- Subtree lookup: `getR t p` is the subtree of `t` rooted at the node
with reversed path `p`, or `none` when no such node exists. -/
def getR (t : DTree) : RPath → Option DTree
  | [] => some t
  | i :: p =>
    match getR t p with
    | some s => s.kids.get? i
    | none => none

/-- Model of `di_child_node`: the first child of `p`, if any
(`src/lib.rs:164`). -/
def childP (t : DTree) (p : RPath) : Option RPath :=
  match getR t p with
  | some s =>
    match s.kids.get? 0 with
    | some _ => some (0 :: p)
    | none => none
  | none => none

/-- Model of `di_sibling_node`: the next sibling of `p`, if any
(`src/lib.rs:177`).  The root has no sibling. -/
def siblingP (t : DTree) (p : RPath) : Option RPath :=
  match p with
  | [] => none
  | i :: q =>
    match getR t q with
    | some s =>
      match s.kids.get? (i + 1) with
      | some _ => some ((i + 1) :: q)
      | none => none
    | none => none

/-- Model of the climb loop of `NodeWalk::next` (`src/lib.rs:190-205`):
repeatedly move to the parent and stop at its next sibling; `none` means
the loop reached the parent of the root and the walk is finished. -/
def ascend (t : DTree) : RPath → Option RPath
  | [] => none
  | _ :: q =>
    match siblingP t q with
    | some s => some s
    | none => ascend t q

/-- The node visited after `p` once `p`'s children are not taken
(`src/lib.rs:174-205`): the next sibling of `p` if any, else the climb. -/
def afterDown (t : DTree) (p : RPath) : Option RPath :=
  match siblingP t p with
  | some s => some s
  | none => ascend t p

/-- The node visited after `p` in an unpruned walk: first child if any,
else `afterDown`. -/
def snext (t : DTree) (p : RPath) : Option RPath :=
  match childP t p with
  | some c => some c
  | none => afterDown t p

/-- State of `NodeWalk` (`src/lib.rs:125-130`): the current node
(`none` models `DI_NODE_NIL`), the finished flag and the pruning flag. -/
structure NodeWalk where
  node : Option RPath
  fin : Bool
  skip_children : Bool
deriving DecidableEq

/-- Model of `NodeWalk::skip_children` (`src/lib.rs:133-135`). -/
def NodeWalk.skipChildren (w : NodeWalk) : NodeWalk :=
  { w with skip_children := true }

/-- The initial state built by `DevInfo::walk_node` (`src/lib.rs:115-122`). -/
def initWalk : NodeWalk :=
  { node := none, fin := false, skip_children := false }

/-- Model of `NodeWalk::next` (`src/lib.rs:138-207`).  The first component
is the yielded item (`none` = iteration signalled finished), the second the
successor state.  Every yielded item is built with `Except.ok`, exactly as
the source always returns `Some(Ok(..))`. -/
def NodeWalk.next (t : DTree) (w : NodeWalk) : Option (Except Unit RPath) × NodeWalk :=
  if w.fin then (none, w)
  else
    match w.node with
    | none =>
      (some (Except.ok []),
        { node := some [], fin := false, skip_children := w.skip_children })
    | some p =>
      let stepSib : Option (Except Unit RPath) × NodeWalk :=
        match afterDown t p with
        | some s =>
          (some (Except.ok s), { node := some s, fin := false, skip_children := false })
        | none => (none, { node := none, fin := true, skip_children := false })
      if w.skip_children then stepSib
      else
        match childP t p with
        | some c =>
          (some (Except.ok c), { node := some c, fin := false, skip_children := false })
        | none => stepSib

/-- Collect the nodes yielded by up to `fuel` advances of the walker,
stopping when the iterator signals finished. -/
def runWalk (t : DTree) : Nat → NodeWalk → List RPath
  | 0, _ => []
  | n + 1, w =>
    match NodeWalk.next t w with
    | (some (Except.ok p), w') => p :: runWalk t n w'
    | (some (Except.error _), _) => []
    | (none, _) => []

/-- Iterate the state transition of `NodeWalk::next` `n` times. -/
def NodeWalk.advanceN (t : DTree) : Nat → NodeWalk → NodeWalk
  | 0, w => w
  | n + 1, w => NodeWalk.advanceN t n (NodeWalk.next t w).2

mutual
/-- Number of nodes of the tree. -/
def DTree.size : DTree → Nat
  | .node f => 1 + DForest.sizeT f

/-- Total number of nodes in a forest. -/
def DForest.sizeT : DForest → Nat
  | .nil => 0
  | .cons t f => DTree.size t + DForest.sizeT f
end

mutual
/-- The pre-order listing of the subtree rooted at `p`: the node itself,
then the listings of its children in order. -/
def preT (p : RPath) : DTree → List RPath
  | .node f => p :: preKidsT p 0 f

/-- Pre-order listings of the subtrees of the sibling chain `f`, whose
first element is child `i` of `p`, concatenated. -/
def preKidsT (p : RPath) (i : Nat) : DForest → List RPath
  | .nil => []
  | .cons c f => preT (i :: p) c ++ preKidsT p (i + 1) f
end

mutual
/-- Mutual induction combinator for `DTree`. -/
def treeInd (Pt : DTree → Prop) (Pf : DForest → Prop)
    (hn : ∀ f, Pf f → Pt (.node f)) (h0 : Pf .nil)
    (hc : ∀ t f, Pt t → Pf f → Pf (.cons t f)) : ∀ t, Pt t
  | .node f => hn f (forestInd Pt Pf hn h0 hc f)

/-- Mutual induction combinator for `DForest`. -/
def forestInd (Pt : DTree → Prop) (Pf : DForest → Prop)
    (hn : ∀ f, Pf f → Pt (.node f)) (h0 : Pf .nil)
    (hc : ∀ t f, Pt t → Pf f → Pf (.cons t f)) : ∀ f, Pf f
  | .nil => h0
  | .cons t f => hc t f (treeInd Pt Pf hn h0 hc t) (forestInd Pt Pf hn h0 hc f)
end

/-- Strict pre-order precedence on node paths: compare the forward
(root-first) index lists lexicographically, a node preceding its
descendants. -/
def rlt (a b : RPath) : Prop :=
  List.Lex (· < ·) a.reverse b.reverse

/-! ### Driver, property and minor walkers (`src/lib.rs:222-244,340-356,462-478`) -/

/-- Environment of `DriverWalk`: what `di_drv_first_node` and
`di_drv_next_node` return. -/
structure DrvEnv where
  firstNode : Option Nat
  nextNode : Nat → Option Nat

/-- State of `DriverWalk` (`src/lib.rs:209-214`). -/
structure DriverWalk where
  node : Option Nat
  fin : Bool
deriving DecidableEq

/-- Model of `DriverWalk::next` (`src/lib.rs:222-244`). -/
def DriverWalk.next (env : DrvEnv) (w : DriverWalk) : Option (Except Unit Nat) × DriverWalk :=
  if w.fin then (none, w)
  else
    match (match w.node with | none => env.firstNode | some p => env.nextNode p) with
    | none => (none, { node := none, fin := true })
    | some p => (some (Except.ok p), { node := some p, fin := false })

/-- Iterate the state transition of `DriverWalk::next`. -/
def DriverWalk.advanceN (env : DrvEnv) : Nat → DriverWalk → DriverWalk
  | 0, w => w
  | n + 1, w => DriverWalk.advanceN env n (DriverWalk.next env w).2

/-- Environment of `PropertyWalk`: what `di_prop_next` returns for the
walker's node, as a function of the previous property handle
(`none` models `DI_PROP_NIL`). -/
structure PropEnv where
  pnext : Option Nat → Option Nat

/-- State of `PropertyWalk` (`src/lib.rs:333-338`). -/
structure PropertyWalk where
  prop : Option Nat
  fin : Bool
deriving DecidableEq

/-- Model of `PropertyWalk::next` (`src/lib.rs:340-356`). -/
def PropertyWalk.next (env : PropEnv) (w : PropertyWalk) :
    Option (Except Unit Nat) × PropertyWalk :=
  if w.fin then (none, w)
  else
    match env.pnext w.prop with
    | none => (none, { prop := none, fin := true })
    | some p => (some (Except.ok p), { prop := some p, fin := false })

/-- Iterate the state transition of `PropertyWalk::next`. -/
def PropertyWalk.advanceN (env : PropEnv) : Nat → PropertyWalk → PropertyWalk
  | 0, w => w
  | n + 1, w => PropertyWalk.advanceN env n (PropertyWalk.next env w).2

/-- Environment of `MinorWalk`: what `di_minor_next` returns for the
walker's node (`none` models `DI_MINOR_NIL`). -/
structure MinorEnv where
  mnext : Option Nat → Option Nat

/-- State of `MinorWalk` (`src/lib.rs:455-460`). -/
structure MinorWalk where
  minor : Option Nat
  fin : Bool
deriving DecidableEq

/-- Model of `MinorWalk::next` (`src/lib.rs:462-478`). -/
def MinorWalk.next (env : MinorEnv) (w : MinorWalk) :
    Option (Except Unit Nat) × MinorWalk :=
  if w.fin then (none, w)
  else
    match env.mnext w.minor with
    | none => (none, { minor := none, fin := true })
    | some p => (some (Except.ok p), { minor := some p, fin := false })

/-- Iterate the state transition of `MinorWalk::next`. -/
def MinorWalk.advanceN (env : MinorEnv) : Nat → MinorWalk → MinorWalk
  | 0, w => w
  | n + 1, w => MinorWalk.advanceN env n (MinorWalk.next env w).2

/-! ### Property decoding (`src/lib.rs:22-32,363-440`) -/

/-- The property kinds of `PropType` (`src/lib.rs:22-32`). -/
inductive PropType where
  | Boolean
  | Int32
  | String
  | Byte
  | Unknown
  | Undefined
  | Int64
deriving DecidableEq

/-- The `TryFromPrimitive` conversion on the raw `di_prop_type` code. -/
def PropType.ofRaw (n : Int) : Option PropType :=
  if n = 0 then some .Boolean
  else if n = 1 then some .Int32
  else if n = 2 then some .String
  else if n = 3 then some .Byte
  else if n = 4 then some .Unknown
  else if n = 5 then some .Undefined
  else if n = 6 then some .Int64
  else none

/-- What the OS reports for one property: the raw type code and, for each
bulk accessor (`di_prop_ints`, `di_prop_int64`, `di_prop_strings`,
`di_prop_bytes`), the returned count and the data behind the returned
pointer. -/
structure RawProp where
  ptypeRaw : Int
  intsN : Int
  intsData : List Int
  int64N : Int
  int64Data : List Int
  strsN : Int
  strsData : List String
  bytesN : Int
  bytesData : List Nat

/-- Model of `Property::value_type` (`src/lib.rs:370-372`): `none` models
the `unwrap` panic on an out-of-range raw code. -/
def Property.value_type (p : RawProp) : Option PropType :=
  PropType.ofRaw p.ptypeRaw

/-- The Rust `as i64` widening of an `i32` value: sign extension is
value-preserving, so on the mathematical value it is the identity. -/
def i32ToI64 (n : Int) : Int := n

/-- Model of `Property::as_i32` (`src/lib.rs:390-403`): the outer `Option`
models the `value_type` panic, the inner one the decode result. -/
def Property.as_i32 (p : RawProp) : Option (Option Int) :=
  (Property.value_type p).map fun pt =>
    match pt with
    | .Int32 => if 1 ≤ p.intsN then some p.intsData.headI else none
    | _ => none

/-- Model of `Property::as_i64` (`src/lib.rs:374-388`). -/
def Property.as_i64 (p : RawProp) : Option (Option Int) :=
  (Property.value_type p).bind fun pt =>
    match pt with
    | .Int64 => some (if 1 ≤ p.int64N then some p.int64Data.headI else none)
    | .Int32 => (Property.as_i32 p).map fun o => o.map i32ToI64
    | _ => some none

/-- Model of `Property::as_cstr` (`src/lib.rs:409-422`). -/
def Property.as_cstr (p : RawProp) : Option (Option String) :=
  (Property.value_type p).map fun pt =>
    match pt with
    | .String => if 1 ≤ p.strsN then some p.strsData.headI else none
    | _ => none

/-- Model of `Property::as_bytes` (`src/lib.rs:424-439`). -/
def Property.as_bytes (p : RawProp) : Option (Option (List Nat)) :=
  (Property.value_type p).map fun pt =>
    match pt with
    | .Byte => if 0 ≤ p.bytesN then some (p.bytesData.take p.bytesN.toNat) else none
    | _ => none

/-- Well-formedness of what the external source reports for a property:
the raw type code is a known one, and a typed property carries at least one
value of its type (32-bit integers additionally lie in the `i32` range). -/
def WFProp (p : RawProp) : Prop :=
  (PropType.ofRaw p.ptypeRaw).isSome = true ∧
  (PropType.ofRaw p.ptypeRaw = some .Int32 →
    1 ≤ p.intsN ∧ p.intsData ≠ [] ∧ ∀ x ∈ p.intsData, -(2 ^ 31) ≤ x ∧ x < 2 ^ 31) ∧
  (PropType.ofRaw p.ptypeRaw = some .Int64 → 1 ≤ p.int64N ∧ p.int64Data ≠ []) ∧
  (PropType.ofRaw p.ptypeRaw = some .String → 1 ≤ p.strsN ∧ p.strsData ≠ []) ∧
  (PropType.ofRaw p.ptypeRaw = some .Byte → 0 ≤ p.bytesN)

/-! ### Minor spec-type decoding (`src/lib.rs:485-510`) -/

/-- The character-special classification code (illumos `S_IFCHR`). -/
def S_IFCHR : Nat := 0x2000

/-- The block-special classification code (illumos `S_IFBLK`). -/
def S_IFBLK : Nat := 0x6000

/-- The `SpecType` classification (`src/lib.rs:485-489`). -/
inductive SpecType where
  | Char
  | Block
deriving DecidableEq

/-- What the OS reports for one minor: the raw `di_minor_spectype` value. -/
structure RawMinor where
  spectypeRaw : Nat

/-- Model of `Minor::spec_type` (`src/lib.rs:504-510`): `none` models the
`panic!` on an unrecognized raw value. -/
def Minor.spec_type (m : RawMinor) : Option SpecType :=
  if m.spectypeRaw = S_IFCHR then some SpecType.Char
  else if m.spectypeRaw = S_IFBLK then some SpecType.Block
  else none

/-! ### Node parent lookup (`src/lib.rs:319-330`) -/

/-- The illumos `ENXIO` error number. -/
def ENXIO : Int := 6

/-- What the OS reports for a `di_parent_node` call: the resulting node
(`none` models `DI_NODE_NIL`) and the `errno` value observed after it. -/
structure ParentEnv where
  res : Option Nat
  errnoVal : Int

/-- Model of `Node::parent` (`src/lib.rs:319-330`). -/
def Node.parent (env : ParentEnv) : Except Unit (Option Nat) :=
  match env.res with
  | none => if env.errnoVal = ENXIO then Except.ok none else Except.error ()
  | some n => Except.ok (some n)

/-! ### Device links (`src/lib.rs:526-641`) -/

/-- The walk-control value returned by the accumulator. -/
def DI_WALK_CONTINUE : Int := 0

/-- The raw primary link kind code. -/
def DI_PRIMARY_LINK : Nat := 1

/-- The raw secondary link kind code. -/
def DI_SECONDARY_LINK : Nat := 2

/-- The `DevLinkType` classification (`src/lib.rs:530-534`). -/
inductive DevLinkType where
  | Primary
  | Secondary
deriving DecidableEq

/-- An owned, decoded device link (`src/lib.rs:536-541`). -/
structure DevLink where
  path : String
  content : String
  linktype : DevLinkType
deriving DecidableEq

/-- What the OS presents to the accumulator for one link: the results of
`di_devlink_path`, `di_devlink_content` (`none` models a null pointer) and
the raw `di_devlink_type` value. -/
structure RawLink where
  pathPtr : Option String
  contentPtr : Option String
  ltypeRaw : Nat

/-- Classification of a raw link kind code, `none` modelling the `panic!`
branch of the `match` in `devlink_accumulate` (`src/lib.rs:583-587`). -/
def kindOf (n : Nat) : Option DevLinkType :=
  if n = DI_PRIMARY_LINK then some DevLinkType.Primary
  else if n = DI_SECONDARY_LINK then some DevLinkType.Secondary
  else none

/-- Model of `devlink_accumulate` (`src/lib.rs:557-592`): given one raw
link and the accumulated vector, produce the new vector and the callback's
return value; the outer `none` models a panic. -/
def devlink_accumulate (l : RawLink) (acc : List DevLink) :
    Option (List DevLink × Int) :=
  if l.pathPtr.isNone ∨ l.contentPtr.isNone
      ∨ (l.ltypeRaw ≠ DI_PRIMARY_LINK ∧ l.ltypeRaw ≠ DI_SECONDARY_LINK) then
    some (acc, DI_WALK_CONTINUE)
  else
    (l.pathPtr).bind fun pa =>
      (l.contentPtr).bind fun co =>
        (kindOf l.ltypeRaw).map fun lt =>
          (acc ++ [{ path := pa, content := co, linktype := lt }], DI_WALK_CONTINUE)

/-- The foreign `di_devlink_walk` call: invoke the accumulator once per
discovered link, continuing while it returns `DI_WALK_CONTINUE`. -/
def runAccum : List RawLink → List DevLink → Option (List DevLink)
  | [], acc => some acc
  | l :: ls, acc =>
    match devlink_accumulate l acc with
    | some (acc2, r) => if r = DI_WALK_CONTINUE then runAccum ls acc2 else some acc2
    | none => none

/-- What the OS does for one `links_for_path` call: the links presented to
the accumulator and the return value of `di_devlink_walk`. -/
structure WalkEnv where
  rawLinks : List RawLink
  walkRet : Int

/-- Model of `DevLinks::links_for_path` (`src/lib.rs:614-641`): run the
foreign enumeration, then fail if it reported failure, else return the
accumulated collection.  The outer `none` models a panic inside the
accumulator. -/
def DevLinks.links_for_path (env : WalkEnv) : Option (Except Unit (List DevLink)) :=
  (runAccum env.rawLinks []).map fun out =>
    if env.walkRet ≠ 0 then Except.error () else Except.ok out

/-- The successful decoding of one raw link, used to describe what the
accumulator collects: a link is kept exactly when its path and target are
non-null and its kind code is primary or secondary. -/
def decodeLink (l : RawLink) : Option DevLink :=
  match l.pathPtr, l.contentPtr, kindOf l.ltypeRaw with
  | some pa, some co, some lt => some { path := pa, content := co, linktype := lt }
  | _, _, _ => none

/-! ### Instance translation (`src/dim.rs:67-111`) -/

/-- What the OS reports for `di_dim_path_dev`, as a function of the
(driver, instance, minor-name) triple. -/
structure DimEnv where
  pathDev : String → Nat → String → Option String

/-- Whether a Rust `CString::new` conversion of the string fails because
of an interior NUL byte. -/
def containsNul (s : String) : Bool :=
  s.data.any fun c => c.toNat = 0

/-- Model of `CString::new(..).ok()`. -/
def cstringNew (s : String) : Option String :=
  if containsNul s then none else some s

/-- The characters of the fixed path root stripped by
`lookup_disk_name`. -/
def devDskChars : List Char :=
  ['/', 'd', 'e', 'v', '/', 'd', 's', 'k', '/']

/-- Model of `path.strip_prefix("/dev/dsk/")` in `src/dim.rs:91`. -/
def stripDevDsk (s : String) : Option String :=
  if s.data.take 9 = devDskChars then some (String.mk (s.data.drop 9)) else none

/-- Model of the slice stripping in `src/dim.rs:102`: drop a trailing
`"s0"` when present, keep the name unchanged otherwise. -/
def stripS0 (s : String) : String :=
  if s.data.reverse.take 2 = ['0', 's'] then String.mk (s.data.take (s.data.length - 2))
  else s

/-- The candidate loop body of `lookup_disk_name` (`src/dim.rs:73-108`):
try each minor name in order; a minor that does not resolve, or whose
resolved path does not start with the fixed root, is skipped. -/
def tryMinors (env : DimEnv) (cdrv : String) (inst : Nat) : List String → Option String
  | [] => none
  | m :: ms =>
    match cstringNew m with
    | none => none
    | some cmin =>
      match env.pathDev cdrv inst cmin with
      | none => tryMinors env cdrv inst ms
      | some res =>
        match stripDevDsk res with
        | none => tryMinors env cdrv inst ms
        | some nam => some (stripS0 nam)

/-- Model of `DevInstMinor::lookup_disk_name` (`src/dim.rs:67-111`). -/
def DevInstMinor.lookup_disk_name (env : DimEnv) (driver : String) (inst : Nat) :
    Option String :=
  (cstringNew driver).bind fun cdrv => tryMinors env cdrv inst ["wd", "a"]

/-- Formulation of the amended C4 claim in the spec's terms: try `"wd"`
then `"a"`, keep the first candidate that resolves to a path with the
`"/dev/dsk/"` root (candidates failing either step are skipped), and strip
a trailing `"s0"` from the result whenever present, regardless of which
minor resolved; absent when no candidate survives or the driver name has
an interior NUL. -/
def diskNameSpecModel (env : DimEnv) (driver : String) (inst : Nat) : Option String :=
  if containsNul driver then none
  else
    ((["wd", "a"].filterMap fun m => (env.pathDev driver inst m).bind stripDevDsk).head?).map
      stripS0

/-- A small concrete device tree used to exercise the walkers: a root with
two children, the first of which has one child of its own. -/
def tEx : DTree :=
  .node (.cons (.node (.cons (.node .nil) .nil)) (.cons (.node .nil) .nil))

/-- A concrete well-formed 32-bit integer property used as witness input. -/
def propEx : RawProp :=
  { ptypeRaw := 1, intsN := 1, intsData := [-5], int64N := 0, int64Data := [],
    strsN := 0, strsData := [], bytesN := 0, bytesData := [] }

/-- A concrete translator environment in which the whole-disk minor of one
driver instance resolves to a path whose short name happens to end in
`"s0"`. -/
def dimEnvCex : DimEnv :=
  { pathDev := fun d i m =>
      if d = "blkdev" ∧ i = 0 ∧ m = "wd" then some "/dev/dsk/foos0" else none }

/-- Membership motive for trees: the pre-order listing of the subtree `t`
placed at `p` holds exactly the extensions of `p` by a path valid in `t`. -/
def PtMem (t : DTree) : Prop :=
  ∀ p q : RPath, q ∈ preT p t ↔ ∃ r, q = r ++ p ∧ (getR t r).isSome = true

/-- Membership motive for forests. -/
def PfMem (f : DForest) : Prop :=
  ∀ (p : RPath) (i : Nat) (q : RPath),
    q ∈ preKidsT p i f ↔
      ∃ k c r, f.get? k = some c ∧ (getR c r).isSome = true ∧ q = r ++ ((i + k) :: p)

/-- Chain motive for trees: inside the global tree `T`, the pre-order
listing of the subtree at `p` is linked by the walker's successor
function, and the successor of its last element is the climb from `p`. -/
def PtChain (T t : DTree) : Prop :=
  ∀ p, getR T p = some t →
    List.Chain' (fun a b => snext T a = some b) (preT p t)
  ∧ ∀ z, (preT p t).getLast? = some z → snext T z = afterDown T p

/-- Chain motive for forests: `f` is the sibling chain of `s` from child
index `i` on. -/
def PfChain (T : DTree) (f : DForest) : Prop :=
  ∀ (p : RPath) (s : DTree) (i : Nat), getR T p = some s →
    (∀ k, s.kids.get? (i + k) = f.get? k) →
    List.Chain' (fun a b => snext T a = some b) (preKidsT p i f)
  ∧ ∀ z, (preKidsT p i f).getLast? = some z → snext T z = afterDown T p

/-- Pairwise motive for trees: pre-order listings are strictly sorted in
the pre-order precedence `rlt`. -/
def PtPair (t : DTree) : Prop :=
  ∀ p, List.Pairwise rlt (preT p t)

/-- Pairwise motive for forests. -/
def PfPair (f : DForest) : Prop :=
  ∀ p i, List.Pairwise rlt (preKidsT p i f)

/-- Length motive for trees: the pre-order listing has one entry per
node. -/
def PtLen (t : DTree) : Prop :=
  ∀ p, (preT p t).length = t.size

/-- Length motive for forests. -/
def PfLen (f : DForest) : Prop :=
  ∀ p i, (preKidsT p i f).length = f.sizeT

/-- Block-decomposition motive for forests: each child's pre-order block
sits contiguously inside the forest's listing. -/
def PfBlock (f : DForest) : Prop :=
  ∀ (p : RPath) (j k : Nat) (c : DTree), f.get? k = some c →
    ∃ K1 K2, preKidsT p j f = K1 ++ preT ((j + k) :: p) c ++ K2

/-! ## Theorems -/

/-! ### C7: minor spec-type decoding -/

/-- C7: for every `Minor`, `spec_type` returns the character classification
for the raw character value and the block classification for the raw block
value, and for any other raw value it panics (modelled by `none`) rather
than returning a coerced or error value; under the precondition that the
external source only reports character or block, the panic branch is
unreachable. -/
theorem minor_spec_type_c7 (m : RawMinor) :
    (m.spectypeRaw = S_IFCHR → Minor.spec_type m = some SpecType.Char)
  ∧ (m.spectypeRaw = S_IFBLK → Minor.spec_type m = some SpecType.Block)
  ∧ (m.spectypeRaw ≠ S_IFCHR → m.spectypeRaw ≠ S_IFBLK → Minor.spec_type m = none)
  ∧ (m.spectypeRaw = S_IFCHR ∨ m.spectypeRaw = S_IFBLK →
      (Minor.spec_type m).isSome = true) := by
  refine ⟨fun h => ?_, fun h => ?_, fun h1 h2 => ?_, fun h => ?_⟩
  · simp [Minor.spec_type, h]
  · have hne : ¬S_IFBLK = S_IFCHR := by decide
    simp [Minor.spec_type, h, hne]
  · simp [Minor.spec_type, h1, h2]
  · rcases h with h | h
    · simp [Minor.spec_type, h]
    · have hne : ¬S_IFBLK = S_IFCHR := by decide
      simp [Minor.spec_type, h, hne]

/-- Witness for C7 at the three kinds of concrete raw values. -/
theorem minor_spec_type_c7_witness :
    Minor.spec_type { spectypeRaw := 0x2000 } = some SpecType.Char
  ∧ Minor.spec_type { spectypeRaw := 0x6000 } = some SpecType.Block
  ∧ Minor.spec_type { spectypeRaw := 0x1000 } = none :=
  ⟨(minor_spec_type_c7 _).1 (by decide),
   (minor_spec_type_c7 _).2.1 (by decide),
   (minor_spec_type_c7 _).2.2.1 (by decide) (by decide)⟩

/-! ### C8: parent lookup -/

/-- C8: `Node::parent` distinguishes absence from failure: a nil result
with `ENXIO` is a successful absent parent, a nil result with any other
error number is an error, and a non-nil result is the parent. -/
theorem node_parent_c8 (env : ParentEnv) :
    (env.res = none → env.errnoVal = ENXIO → Node.parent env = Except.ok none)
  ∧ (env.res = none → env.errnoVal ≠ ENXIO → Node.parent env = Except.error ())
  ∧ (∀ n, env.res = some n → Node.parent env = Except.ok (some n)) := by
  refine ⟨fun h1 h2 => ?_, fun h1 h2 => ?_, fun n h => ?_⟩
  · simp [Node.parent, h1, h2]
  · simp [Node.parent, h1, h2]
  · simp [Node.parent, h]

/-- Witness for C8 at the three kinds of concrete environments. -/
theorem node_parent_c8_witness :
    Node.parent { res := none, errnoVal := 6 } = Except.ok none
  ∧ Node.parent { res := none, errnoVal := 5 } = Except.error ()
  ∧ Node.parent { res := some 3, errnoVal := 0 } = Except.ok (some 3) :=
  ⟨(node_parent_c8 _).1 rfl (by decide),
   (node_parent_c8 _).2.1 rfl (by decide),
   (node_parent_c8 _).2.2 3 rfl⟩

/-! ### C5 and C6: device links -/

/-- The accumulator never panics and collects exactly the decodable links:
running it over a list of raw links appends their decodings to the
accumulated collection. -/
theorem runAccum_eq : ∀ (ls : List RawLink) (acc : List DevLink),
    runAccum ls acc = some (acc ++ ls.filterMap decodeLink)
  | [], acc => by simp [runAccum]
  | l :: ls, acc => by
    obtain ⟨pp, cp, k⟩ := l
    rcases pp with _ | pa
    · simp only [runAccum, devlink_accumulate, decodeLink, Option.isNone_none,
        true_or, if_true, if_pos rfl, List.filterMap_cons]
      simp [runAccum_eq ls acc]
    rcases cp with _ | co
    · simp only [runAccum, devlink_accumulate, decodeLink, Option.isNone_none,
        Option.isNone_some, true_or, or_true, if_true, List.filterMap_cons]
      simp [runAccum_eq ls acc]
    by_cases hk : k = DI_PRIMARY_LINK ∨ k = DI_SECONDARY_LINK
    · have hguard : ¬((some pa).isNone = true ∨ (some co).isNone = true
          ∨ (k ≠ DI_PRIMARY_LINK ∧ k ≠ DI_SECONDARY_LINK)) := by
        rcases hk with hk | hk <;> simp [hk]
      have hkind : ∃ lt, kindOf k = some lt := by
        rcases hk with hk | hk <;> simp [kindOf, hk]
        by_cases h12 : DI_SECONDARY_LINK = DI_PRIMARY_LINK
        · exact absurd h12 (by decide)
        · simp [h12]
      obtain ⟨lt, hlt⟩ := hkind
      simp only [runAccum, devlink_accumulate, hguard, if_false, Option.some_bind,
        hlt, Option.map_some, if_pos rfl, decodeLink, List.filterMap_cons]
      simp [hlt, runAccum_eq ls (acc ++ [{ path := pa, content := co, linktype := lt }])]
    · push_neg at hk
      have hkind : kindOf k = none := by simp [kindOf, hk.1, hk.2]
      simp only [runAccum, devlink_accumulate, decodeLink, hk, and_self, or_true,
        if_true, List.filterMap_cons, hkind]
      simp [hk.1, hk.2, runAccum_eq ls acc]

/-- C5: `links_for_path` returns an error (discarding anything already
accumulated) exactly when the foreign enumeration call reports failure;
on success it returns the accumulated collection, which is empty — not an
error — for a path with zero registered links. -/
theorem links_for_path_c5 (env : WalkEnv) :
    (env.walkRet ≠ 0 → DevLinks.links_for_path env = some (Except.error ()))
  ∧ (env.walkRet = 0 →
      DevLinks.links_for_path env = some (Except.ok (env.rawLinks.filterMap decodeLink)))
  ∧ (env.walkRet = 0 → env.rawLinks = [] →
      DevLinks.links_for_path env = some (Except.ok [])) := by
  unfold DevLinks.links_for_path
  rw [runAccum_eq]
  exact ⟨fun h => by simp [h], fun h => by simp [h], fun h h2 => by simp [h, h2]⟩

/-- Witness for C5: a failing walk discards an already-accumulable link;
a successful walk over zero links yields the empty collection. -/
theorem links_for_path_c5_witness :
    DevLinks.links_for_path
      { rawLinks := [{ pathPtr := some "/dev/x", contentPtr := some "/devices/y",
                       ltypeRaw := 1 }],
        walkRet := -1 } = some (Except.error ())
  ∧ DevLinks.links_for_path { rawLinks := [], walkRet := 0 } = some (Except.ok []) :=
  ⟨(links_for_path_c5 _).1 (by decide), (links_for_path_c5 _).2.2 rfl rfl⟩

/-- C6 (amended): the accumulator skips a link whose path or target is
null or whose raw kind is neither primary nor secondary, returning the
collection unchanged and directing the walk to continue; a decodable link
is appended; and the accumulator never reaches its panicking
classification branch — an unrecognized kind is skipped, not fatal. -/
theorem devlink_accumulate_c6 (l : RawLink) (acc : List DevLink) :
    (l.pathPtr.isNone = true ∨ l.contentPtr.isNone = true
        ∨ (l.ltypeRaw ≠ DI_PRIMARY_LINK ∧ l.ltypeRaw ≠ DI_SECONDARY_LINK) →
      devlink_accumulate l acc = some (acc, DI_WALK_CONTINUE))
  ∧ (∀ pa co lt, l.pathPtr = some pa → l.contentPtr = some co →
      kindOf l.ltypeRaw = some lt →
      devlink_accumulate l acc
        = some (acc ++ [{ path := pa, content := co, linktype := lt }], DI_WALK_CONTINUE))
  ∧ (devlink_accumulate l acc).isSome = true := by
  refine ⟨fun h => ?_, fun pa co lt h1 h2 h3 => ?_, ?_⟩
  · unfold devlink_accumulate
    rw [if_pos h]
  · have hk : l.ltypeRaw = DI_PRIMARY_LINK ∨ l.ltypeRaw = DI_SECONDARY_LINK := by
      by_contra hc
      push_neg at hc
      simp [kindOf, hc.1, hc.2] at h3
    have hguard : ¬(l.pathPtr.isNone = true ∨ l.contentPtr.isNone = true
        ∨ (l.ltypeRaw ≠ DI_PRIMARY_LINK ∧ l.ltypeRaw ≠ DI_SECONDARY_LINK)) := by
      rcases hk with hk | hk <;> simp [h1, h2, hk]
    unfold devlink_accumulate
    rw [if_neg hguard, h1, h2]
    simp [h3]
  · by_cases h : l.pathPtr.isNone = true ∨ l.contentPtr.isNone = true
        ∨ (l.ltypeRaw ≠ DI_PRIMARY_LINK ∧ l.ltypeRaw ≠ DI_SECONDARY_LINK)
    · unfold devlink_accumulate
      rw [if_pos h]
      rfl
    · rcases hpp : l.pathPtr with _ | pa
      · exact absurd h (by simp [hpp])
      rcases hcc : l.contentPtr with _ | co
      · exact absurd h (by simp [hcc])
      have hk : l.ltypeRaw = DI_PRIMARY_LINK ∨ l.ltypeRaw = DI_SECONDARY_LINK := by
        by_contra hc
        push_neg at hc
        exact h (Or.inr (Or.inr hc))
      have hkind : ∃ lt, kindOf l.ltypeRaw = some lt := by
        rcases hk with hk | hk
        · exact ⟨DevLinkType.Primary, by simp [kindOf, hk]⟩
        · refine ⟨DevLinkType.Secondary, ?_⟩
          have h12 : ¬DI_SECONDARY_LINK = DI_PRIMARY_LINK := by decide
          simp [kindOf, hk, h12]
      obtain ⟨lt, hlt⟩ := hkind
      unfold devlink_accumulate
      rw [if_neg h, hpp, hcc]
      simp [hlt]

/-- Counterexample for C6 as frozen: a link whose raw kind code is `7` —
neither primary nor secondary — is not fatal: the accumulator returns
normally, leaves the collection unchanged and asks the walk to continue. -/
theorem devlink_accumulate_c6_cex :
    devlink_accumulate
      { pathPtr := some "/dev/cfg/x", contentPtr := some "/devices/y", ltypeRaw := 7 }
      [] = some ([], DI_WALK_CONTINUE) := by
  decide

/-- Witness for C6: a null-path link is skipped and a decodable primary
link is appended. -/
theorem devlink_accumulate_c6_witness :
    devlink_accumulate { pathPtr := none, contentPtr := some "/devices/a", ltypeRaw := 1 }
      [] = some ([], DI_WALK_CONTINUE)
  ∧ devlink_accumulate
      { pathPtr := some "/dev/x", contentPtr := some "/devices/a", ltypeRaw := 1 } []
      = some ([{ path := "/dev/x", content := "/devices/a",
                 linktype := DevLinkType.Primary }], DI_WALK_CONTINUE) :=
  ⟨(devlink_accumulate_c6 _ _).1 (by decide),
   (devlink_accumulate_c6 _ _).2.1 _ _ _ rfl rfl (by decide)⟩

/-! ### C3: property decoding -/

/-- C3: for every well-formed property, decoding with the kind matching
`value_type` succeeds and decoding with any other kind returns absent
(`some none`: a returned `None`, not an error and not a panic); the single
exception is that a 32-bit integer property also decodes via `as_i64`,
which then equals `as_i32` mapped through the lossless `i32`-to-`i64`
widening. -/
theorem property_decode_c3 (p : RawProp) (h : WFProp p) :
    ∀ pt, Property.value_type p = some pt →
      ((pt = PropType.Int32 →
          (∃ v, Property.as_i32 p = some (some v))
        ∧ Property.as_i64 p = (Property.as_i32 p).map fun o => o.map i32ToI64)
    ∧ (pt = PropType.Int64 → ∃ v, Property.as_i64 p = some (some v))
    ∧ (pt = PropType.String → ∃ s, Property.as_cstr p = some (some s))
    ∧ (pt = PropType.Byte → ∃ b, Property.as_bytes p = some (some b))
    ∧ (pt ≠ PropType.Int32 → Property.as_i32 p = some none)
    ∧ (pt ≠ PropType.Int32 → pt ≠ PropType.Int64 → Property.as_i64 p = some none)
    ∧ (pt ≠ PropType.String → Property.as_cstr p = some none)
    ∧ (pt ≠ PropType.Byte → Property.as_bytes p = some none)) := by
  intro pt hpt
  obtain ⟨-, hi32, hi64, hstr, hbyte⟩ := h
  have hvt : Property.value_type p = some pt := hpt
  rw [Property.value_type] at hvt
  refine ⟨fun he => ?_, fun he => ?_, fun he => ?_, fun he => ?_,
    fun hne => ?_, fun hne1 hne2 => ?_, fun hne => ?_, fun hne => ?_⟩
  · subst he
    obtain ⟨hn, -, -⟩ := hi32 hvt
    constructor
    · exact ⟨p.intsData.headI, by simp [Property.as_i32, Property.value_type, hvt, hn]⟩
    · simp [Property.as_i64, Property.value_type, hvt]
  · subst he
    obtain ⟨hn, -⟩ := hi64 hvt
    exact ⟨p.int64Data.headI, by simp [Property.as_i64, Property.value_type, hvt, hn]⟩
  · subst he
    obtain ⟨hn, -⟩ := hstr hvt
    exact ⟨p.strsData.headI, by simp [Property.as_cstr, Property.value_type, hvt, hn]⟩
  · subst he
    have hn := hbyte hvt
    exact ⟨p.bytesData.take p.bytesN.toNat,
      by simp [Property.as_bytes, Property.value_type, hvt, hn]⟩
  · rw [Property.as_i32, Property.value_type, hvt]
    cases pt <;> simp_all
  · rw [Property.as_i64, Property.value_type, hvt]
    cases pt <;> simp_all
  · rw [Property.as_cstr, Property.value_type, hvt]
    cases pt <;> simp_all
  · rw [Property.as_bytes, Property.value_type, hvt]
    cases pt <;> simp_all

/-- Witness for C3 at a concrete 32-bit integer property. -/
theorem property_decode_c3_witness :
    (∃ v, Property.as_i32 propEx = some (some v))
  ∧ Property.as_i64 propEx = (Property.as_i32 propEx).map fun o => o.map i32ToI64 :=
  (property_decode_c3 propEx (by unfold WFProp; decide) PropType.Int32 (by decide)).1 rfl

/-! ### C4: disk-name lookup -/

/-- C4 (amended): `lookup_disk_name` tries `"wd"` then `"a"` and returns
the first candidate that resolves to a path carrying the `"/dev/dsk/"` root
(skipping a candidate that resolves but fails the strip), strips that root,
and strips a trailing `"s0"` whenever present — regardless of which minor
resolved; it is absent exactly when no candidate survives both steps (or
the driver name holds an interior NUL). -/
theorem lookup_disk_name_c4 (env : DimEnv) (driver : String) (inst : Nat) :
    DevInstMinor.lookup_disk_name env driver inst = diskNameSpecModel env driver inst := by
  unfold DevInstMinor.lookup_disk_name diskNameSpecModel
  by_cases hd : containsNul driver = true
  · simp [cstringNew, hd]
  · have hcd : cstringNew driver = some driver := by simp [cstringNew, hd]
    rw [hcd, if_neg hd]
    have hwd : cstringNew "wd" = some "wd" := by decide
    have ha : cstringNew "a" = some "a" := by decide
    cases hw : env.pathDev driver inst "wd" with
    | none =>
      cases hA : env.pathDev driver inst "a" with
      | none => simp [tryMinors, hwd, ha, hw, hA]
      | some res =>
        cases hs : stripDevDsk res with
        | none => simp [tryMinors, hwd, ha, hw, hA, hs]
        | some nam => simp [tryMinors, hwd, ha, hw, hA, hs]
    | some res =>
      cases hs : stripDevDsk res with
      | none =>
        cases hA : env.pathDev driver inst "a" with
        | none => simp [tryMinors, hwd, ha, hw, hA, hs]
        | some res2 =>
          cases hs2 : stripDevDsk res2 with
          | none => simp [tryMinors, hwd, ha, hw, hA, hs, hs2]
          | some nam2 => simp [tryMinors, hwd, ha, hw, hA, hs, hs2]
      | some nam => simp [tryMinors, hwd, ha, hw, hs]

/-- Counterexample for C4 as frozen: an instance whose whole-disk `"wd"`
minor resolves to `/dev/dsk/foos0` — the first, non-legacy candidate is the
one used, yet the returned name still has the trailing `"s0"` stripped, so
the slice suffix is not stripped only when the legacy `"a"` minor was
used. -/
theorem lookup_disk_name_c4_cex :
    dimEnvCex.pathDev "blkdev" 0 "wd" = some "/dev/dsk/foos0"
  ∧ DevInstMinor.lookup_disk_name dimEnvCex "blkdev" 0 = some "foo" := by
  constructor
  · decide
  · decide

/-! ### C9 and C10: walker item shape and fusedness -/

/-- A finished `NodeWalk` advance is a no-op returning no item. -/
theorem NodeWalk.nwNextOfFin (t : DTree) (w : NodeWalk) (h : w.fin = true) :
    NodeWalk.next t w = (none, w) := by
  simp [NodeWalk.next, h]

/-- An advance of `NodeWalk` that yields no item has set the finished
flag. -/
theorem NodeWalk.nwFinOfNone (t : DTree) (w : NodeWalk)
    (h : (NodeWalk.next t w).1 = none) : (NodeWalk.next t w).2.fin = true := by
  cases hf : w.fin with
  | true => simp [NodeWalk.next, hf]
  | false =>
    cases hn : w.node with
    | none => simp [NodeWalk.next, hf, hn] at h
    | some p =>
      cases hsk : w.skip_children with
      | true =>
        cases had : afterDown t p with
        | none => simp [NodeWalk.next, hf, hn, hsk, had]
        | some s => simp [NodeWalk.next, hf, hn, hsk, had] at h
      | false =>
        cases hcd : childP t p with
        | some c => simp [NodeWalk.next, hf, hn, hsk, hcd] at h
        | none =>
          cases had : afterDown t p with
          | none => simp [NodeWalk.next, hf, hn, hsk, hcd, had]
          | some s => simp [NodeWalk.next, hf, hn, hsk, hcd, had] at h

/-- Advancing a finished `NodeWalk` any number of times leaves it fixed. -/
theorem NodeWalk.nwAdvanceNOfFin (t : DTree) (w : NodeWalk) (h : w.fin = true) :
    ∀ n, NodeWalk.advanceN t n w = w := by
  intro n
  induction n with
  | zero => rfl
  | succ n ih =>
    show NodeWalk.advanceN t n (NodeWalk.next t w).2 = w
    rw [NodeWalk.nwNextOfFin t w h]
    exact ih

/-- A finished `DriverWalk` advance is a no-op returning no item. -/
theorem DriverWalk.dwNextOfFin (env : DrvEnv) (w : DriverWalk) (h : w.fin = true) :
    DriverWalk.next env w = (none, w) := by
  simp [DriverWalk.next, h]

/-- An advance of `DriverWalk` that yields no item has set the finished
flag. -/
theorem DriverWalk.dwFinOfNone (env : DrvEnv) (w : DriverWalk)
    (h : (DriverWalk.next env w).1 = none) : (DriverWalk.next env w).2.fin = true := by
  cases hf : w.fin with
  | true => simp [DriverWalk.next, hf]
  | false =>
    cases hn : w.node with
    | none =>
      cases hres : env.firstNode with
      | none => simp [DriverWalk.next, hf, hn, hres]
      | some p => simp [DriverWalk.next, hf, hn, hres] at h
    | some q =>
      cases hres : env.nextNode q with
      | none => simp [DriverWalk.next, hf, hn, hres]
      | some p => simp [DriverWalk.next, hf, hn, hres] at h

/-- Advancing a finished `DriverWalk` any number of times leaves it
fixed. -/
theorem DriverWalk.dwAdvanceNOfFin (env : DrvEnv) (w : DriverWalk) (h : w.fin = true) :
    ∀ n, DriverWalk.advanceN env n w = w := by
  intro n
  induction n with
  | zero => rfl
  | succ n ih =>
    show DriverWalk.advanceN env n (DriverWalk.next env w).2 = w
    rw [DriverWalk.dwNextOfFin env w h]
    exact ih

/-- A finished `PropertyWalk` advance is a no-op returning no item. -/
theorem PropertyWalk.pwNextOfFin (env : PropEnv) (w : PropertyWalk) (h : w.fin = true) :
    PropertyWalk.next env w = (none, w) := by
  simp [PropertyWalk.next, h]

/-- An advance of `PropertyWalk` that yields no item has set the finished
flag. -/
theorem PropertyWalk.pwFinOfNone (env : PropEnv) (w : PropertyWalk)
    (h : (PropertyWalk.next env w).1 = none) : (PropertyWalk.next env w).2.fin = true := by
  cases hf : w.fin with
  | true => simp [PropertyWalk.next, hf]
  | false =>
    cases hres : env.pnext w.prop with
    | none => simp [PropertyWalk.next, hf, hres]
    | some p => simp [PropertyWalk.next, hf, hres] at h

/-- Advancing a finished `PropertyWalk` any number of times leaves it
fixed. -/
theorem PropertyWalk.pwAdvanceNOfFin (env : PropEnv) (w : PropertyWalk)
    (h : w.fin = true) : ∀ n, PropertyWalk.advanceN env n w = w := by
  intro n
  induction n with
  | zero => rfl
  | succ n ih =>
    show PropertyWalk.advanceN env n (PropertyWalk.next env w).2 = w
    rw [PropertyWalk.pwNextOfFin env w h]
    exact ih

/-- A finished `MinorWalk` advance is a no-op returning no item. -/
theorem MinorWalk.mwNextOfFin (env : MinorEnv) (w : MinorWalk) (h : w.fin = true) :
    MinorWalk.next env w = (none, w) := by
  simp [MinorWalk.next, h]

/-- An advance of `MinorWalk` that yields no item has set the finished
flag. -/
theorem MinorWalk.mwFinOfNone (env : MinorEnv) (w : MinorWalk)
    (h : (MinorWalk.next env w).1 = none) : (MinorWalk.next env w).2.fin = true := by
  cases hf : w.fin with
  | true => simp [MinorWalk.next, hf]
  | false =>
    cases hres : env.mnext w.minor with
    | none => simp [MinorWalk.next, hf, hres]
    | some p => simp [MinorWalk.next, hf, hres] at h

/-- Advancing a finished `MinorWalk` any number of times leaves it
fixed. -/
theorem MinorWalk.mwAdvanceNOfFin (env : MinorEnv) (w : MinorWalk) (h : w.fin = true) :
    ∀ n, MinorWalk.advanceN env n w = w := by
  intro n
  induction n with
  | zero => rfl
  | succ n ih =>
    show MinorWalk.advanceN env n (MinorWalk.next env w).2 = w
    rw [MinorWalk.mwNextOfFin env w h]
    exact ih

/-- C9: every item actually yielded by any of the four walkers is a
success value: each advance either signals finished or yields
`Except.ok`, never `Except.error`. -/
theorem walkers_yield_ok_c9 :
    (∀ (t : DTree) (w : NodeWalk),
        (NodeWalk.next t w).1 = none
      ∨ ∃ p, (NodeWalk.next t w).1 = some (Except.ok p))
  ∧ (∀ (env : DrvEnv) (w : DriverWalk),
        (DriverWalk.next env w).1 = none
      ∨ ∃ p, (DriverWalk.next env w).1 = some (Except.ok p))
  ∧ (∀ (env : PropEnv) (w : PropertyWalk),
        (PropertyWalk.next env w).1 = none
      ∨ ∃ p, (PropertyWalk.next env w).1 = some (Except.ok p))
  ∧ (∀ (env : MinorEnv) (w : MinorWalk),
        (MinorWalk.next env w).1 = none
      ∨ ∃ p, (MinorWalk.next env w).1 = some (Except.ok p)) := by
  refine ⟨fun t w => ?_, fun env w => ?_, fun env w => ?_, fun env w => ?_⟩
  · cases hf : w.fin with
    | true => exact Or.inl (by simp [NodeWalk.next, hf])
    | false =>
      cases hn : w.node with
      | none => exact Or.inr ⟨[], by simp [NodeWalk.next, hf, hn]⟩
      | some p =>
        cases hsk : w.skip_children with
        | true =>
          cases had : afterDown t p with
          | none => exact Or.inl (by simp [NodeWalk.next, hf, hn, hsk, had])
          | some s => exact Or.inr ⟨s, by simp [NodeWalk.next, hf, hn, hsk, had]⟩
        | false =>
          cases hcd : childP t p with
          | some c => exact Or.inr ⟨c, by simp [NodeWalk.next, hf, hn, hsk, hcd]⟩
          | none =>
            cases had : afterDown t p with
            | none => exact Or.inl (by simp [NodeWalk.next, hf, hn, hsk, hcd, had])
            | some s => exact Or.inr ⟨s, by simp [NodeWalk.next, hf, hn, hsk, hcd, had]⟩
  · cases hf : w.fin with
    | true => exact Or.inl (by simp [DriverWalk.next, hf])
    | false =>
      cases hn : w.node with
      | none =>
        cases hres : env.firstNode with
        | none => exact Or.inl (by simp [DriverWalk.next, hf, hn, hres])
        | some p => exact Or.inr ⟨p, by simp [DriverWalk.next, hf, hn, hres]⟩
      | some q =>
        cases hres : env.nextNode q with
        | none => exact Or.inl (by simp [DriverWalk.next, hf, hn, hres])
        | some p => exact Or.inr ⟨p, by simp [DriverWalk.next, hf, hn, hres]⟩
  · cases hf : w.fin with
    | true => exact Or.inl (by simp [PropertyWalk.next, hf])
    | false =>
      cases hres : env.pnext w.prop with
      | none => exact Or.inl (by simp [PropertyWalk.next, hf, hres])
      | some p => exact Or.inr ⟨p, by simp [PropertyWalk.next, hf, hres]⟩
  · cases hf : w.fin with
    | true => exact Or.inl (by simp [MinorWalk.next, hf])
    | false =>
      cases hres : env.mnext w.minor with
      | none => exact Or.inl (by simp [MinorWalk.next, hf, hres])
      | some p => exact Or.inr ⟨p, by simp [MinorWalk.next, hf, hres]⟩

/-- C10: each of the four walkers is fused: once an advance yields no
item the finished flag is set, and every subsequent advance also yields no
item. -/
theorem walkers_fused_c10 :
    (∀ (t : DTree) (w : NodeWalk), (NodeWalk.next t w).1 = none →
        ∀ n, (NodeWalk.next t (NodeWalk.advanceN t n (NodeWalk.next t w).2)).1 = none)
  ∧ (∀ (env : DrvEnv) (w : DriverWalk), (DriverWalk.next env w).1 = none →
        ∀ n, (DriverWalk.next env
          (DriverWalk.advanceN env n (DriverWalk.next env w).2)).1 = none)
  ∧ (∀ (env : PropEnv) (w : PropertyWalk), (PropertyWalk.next env w).1 = none →
        ∀ n, (PropertyWalk.next env
          (PropertyWalk.advanceN env n (PropertyWalk.next env w).2)).1 = none)
  ∧ (∀ (env : MinorEnv) (w : MinorWalk), (MinorWalk.next env w).1 = none →
        ∀ n, (MinorWalk.next env
          (MinorWalk.advanceN env n (MinorWalk.next env w).2)).1 = none) := by
  refine ⟨fun t w h n => ?_, fun env w h n => ?_, fun env w h n => ?_,
    fun env w h n => ?_⟩
  · have hfin := NodeWalk.nwFinOfNone t w h
    rw [NodeWalk.nwAdvanceNOfFin t _ hfin, NodeWalk.nwNextOfFin t _ hfin]
  · have hfin := DriverWalk.dwFinOfNone env w h
    rw [DriverWalk.dwAdvanceNOfFin env _ hfin, DriverWalk.dwNextOfFin env _ hfin]
  · have hfin := PropertyWalk.pwFinOfNone env w h
    rw [PropertyWalk.pwAdvanceNOfFin env _ hfin, PropertyWalk.pwNextOfFin env _ hfin]
  · have hfin := MinorWalk.mwFinOfNone env w h
    rw [MinorWalk.mwAdvanceNOfFin env _ hfin, MinorWalk.mwNextOfFin env _ hfin]

/-- Witness for C10 at concrete finished walkers of each kind. -/
theorem walkers_fused_c10_witness :
    (NodeWalk.next tEx (NodeWalk.advanceN tEx 2
      (NodeWalk.next tEx { node := none, fin := true, skip_children := false }).2)).1 = none
  ∧ (DriverWalk.next { firstNode := none, nextNode := fun _ => none }
      (DriverWalk.advanceN { firstNode := none, nextNode := fun _ => none } 2
        (DriverWalk.next { firstNode := none, nextNode := fun _ => none }
          { node := none, fin := false }).2)).1 = none
  ∧ (PropertyWalk.next { pnext := fun _ => none }
      (PropertyWalk.advanceN { pnext := fun _ => none } 2
        (PropertyWalk.next { pnext := fun _ => none }
          { prop := none, fin := false }).2)).1 = none
  ∧ (MinorWalk.next { mnext := fun _ => none }
      (MinorWalk.advanceN { mnext := fun _ => none } 2
        (MinorWalk.next { mnext := fun _ => none }
          { minor := none, fin := false }).2)).1 = none :=
  ⟨walkers_fused_c10.1 tEx { node := none, fin := true, skip_children := false } rfl 2,
   walkers_fused_c10.2.1 { firstNode := none, nextNode := fun _ => none }
     { node := none, fin := false } rfl 2,
   walkers_fused_c10.2.2.1 { pnext := fun _ => none } { prop := none, fin := false } rfl 2,
   walkers_fused_c10.2.2.2 { mnext := fun _ => none } { minor := none, fin := false } rfl 2⟩

/-! ### C1 and C2: the node walker -/

/-- Unfolding of the subtree lookup one level in. -/
theorem getR_cons (t : DTree) (i : Nat) (p : RPath) :
    getR t (i :: p) = (getR t p).bind fun s => s.kids.get? i := by
  cases h : getR t p <;> simp [getR, h]

/-- Subtree lookup along a concatenation factors through the outer
path. -/
theorem getR_append (t : DTree) : ∀ a b : RPath,
    getR t (a ++ b) = (getR t b).bind fun s => getR s a
  | [], b => by cases h : getR t b <;> simp [h, getR]
  | i :: a, b => by
    rw [List.cons_append, getR_cons, getR_append t a b]
    cases h : getR t b <;> simp [h, getR_cons]

/-- The first child exists exactly when child `0` does. -/
theorem childP_of_get0 (t : DTree) (p : RPath) (s c : DTree)
    (hp : getR t p = some s) (h0 : s.kids.get? 0 = some c) :
    childP t p = some (0 :: p) := by
  simp [childP, hp, h0]

/-- Absence of a first child. -/
theorem childP_of_none (t : DTree) (p : RPath) (s : DTree)
    (hp : getR t p = some s) (h0 : s.kids.get? 0 = none) :
    childP t p = none := by
  simp [childP, hp, h0]

/-- Existence of the next sibling. -/
theorem siblingP_of_get (t : DTree) (q : RPath) (i : Nat) (s c : DTree)
    (hq : getR t q = some s) (hc : s.kids.get? (i + 1) = some c) :
    siblingP t (i :: q) = some ((i + 1) :: q) := by
  simp [siblingP, hq, hc]

/-- Absence of the next sibling. -/
theorem siblingP_of_none (t : DTree) (q : RPath) (i : Nat) (s : DTree)
    (hq : getR t q = some s) (hc : s.kids.get? (i + 1) = none) :
    siblingP t (i :: q) = none := by
  simp [siblingP, hq, hc]

/-- One climb step from a non-root node first looks at the parent's
sibling, which is exactly the fall-back move from the parent. -/
theorem ascend_cons (t : DTree) (i : Nat) (q : RPath) :
    ascend t (i :: q) = afterDown t q := by
  rw [ascend, afterDown]

/-- The successor when a first child exists. -/
theorem snext_of_child (t : DTree) (p : RPath) (c : RPath)
    (h : childP t p = some c) : snext t p = some c := by
  simp [snext, h]

/-- The successor when no first child exists. -/
theorem snext_of_nochild (t : DTree) (p : RPath)
    (h : childP t p = none) : snext t p = afterDown t p := by
  simp [snext, h]

/-- A pre-order listing is never empty. -/
theorem preT_ne_nil (p : RPath) (t : DTree) : preT p t ≠ [] := by
  cases t with
  | node f => rw [preT]; exact List.cons_ne_nil _ _

/-- A pre-order listing starts at its root. -/
theorem preT_head (p : RPath) (t : DTree) : (preT p t).head? = some p := by
  cases t with
  | node f => rw [preT]; rfl

/-- The root of a subtree is in its pre-order listing. -/
theorem preT_mem_self (p : RPath) (t : DTree) : p ∈ preT p t := by
  cases t with
  | node f => rw [preT]; exact List.mem_cons_self _ _

/-- Membership characterization of pre-order listings: the block of `p`
holds exactly the extensions of `p` by a path valid in its subtree. -/
theorem mem_preT_aux : (∀ t, PtMem t) ∧ (∀ f, PfMem f) := by
  have h0 : PfMem DForest.nil := by
    intro p i q
    rw [preKidsT]
    constructor
    · intro hq
      exact absurd hq (List.not_mem_nil q)
    · rintro ⟨k, c, r, hk, -, -⟩
      simp [DForest.get?] at hk
  have hn : ∀ f, PfMem f → PtMem (DTree.node f) := by
    intro f hf p q
    rw [preT, List.mem_cons]
    constructor
    · rintro (rfl | hq)
      · exact ⟨[], rfl, rfl⟩
      · obtain ⟨k, c, r, hk, hr, rfl⟩ := (hf p 0 q).mp hq
        refine ⟨r ++ [k], by simp, ?_⟩
        rw [getR_append]
        have hks : getR (DTree.node f) [k] = f.get? k := by
          rw [getR_cons]
          simp [getR, DTree.kids]
        rw [hks, hk]
        simpa using hr
    · rintro ⟨r, rfl, hr⟩
      rcases List.eq_nil_or_concat r with rfl | ⟨r', k, rfl⟩
      · exact Or.inl rfl
      · right
        rw [List.concat_eq_append] at hr ⊢
        rw [getR_append] at hr
        have hks : getR (DTree.node f) [k] = f.get? k := by
          rw [getR_cons]
          simp [getR, DTree.kids]
        rw [hks] at hr
        cases hk : f.get? k with
        | none => rw [hk] at hr; simp at hr
        | some c =>
          rw [hk] at hr
          simp only [Option.some_bind] at hr
          refine (hf p 0 _).mpr ⟨k, c, r', hk, hr, ?_⟩
          simp [List.append_assoc]
  have hc : ∀ t f, PtMem t → PfMem f → PfMem (DForest.cons t f) := by
    intro c f ht hf p i q
    rw [preKidsT, List.mem_append]
    constructor
    · rintro (hq | hq)
      · obtain ⟨r, rfl, hr⟩ := (ht (i :: p) q).mp hq
        exact ⟨0, c, r, rfl, hr, by simp⟩
      · obtain ⟨k, c', r, hk, hr, rfl⟩ := (hf p (i + 1) q).mp hq
        refine ⟨k + 1, c', r, by simpa [DForest.get?] using hk, hr, ?_⟩
        have harith : i + (k + 1) = i + 1 + k := by omega
        rw [harith]
    · rintro ⟨k, c', r, hk, hr, rfl⟩
      cases k with
      | zero =>
        left
        have hcc : c' = c := by
          simp [DForest.get?] at hk
          exact hk.symm
        subst hcc
        exact (ht (i :: p) _).mpr ⟨r, by simp, hr⟩
      | succ k =>
        right
        have hk' : f.get? k = some c' := by simpa [DForest.get?] using hk
        have harith : i + (k + 1) = i + 1 + k := by omega
        rw [harith]
        exact (hf p (i + 1) _).mpr ⟨k, c', r, hk', hr, rfl⟩
  exact ⟨treeInd PtMem PfMem hn h0 hc, forestInd PtMem PfMem hn h0 hc⟩

/-- Elements of the whole pre-order listing are exactly the valid
paths. -/
theorem mem_preT_root (t : DTree) (q : RPath) :
    q ∈ preT [] t ↔ (getR t q).isSome = true := by
  rw [mem_preT_aux.1 t [] q]
  constructor
  · rintro ⟨r, rfl, hr⟩
    simpa using hr
  · intro h
    exact ⟨q, by simp, h⟩

/-- A forward path strictly precedes any of its proper extensions. -/
theorem lex_append_lt {l t : List Nat} (b : Nat) :
    List.Lex (· < ·) l (l ++ b :: t) := by
  induction l with
  | nil => exact List.Lex.nil
  | cons a l ih => exact List.Lex.cons ih

/-- Forward paths branching at a common position compare by the branch
index. -/
theorem lex_mid_lt (c : List Nat) {i j : Nat} (t1 t2 : List Nat) (h : i < j) :
    List.Lex (· < ·) (c ++ i :: t1) (c ++ j :: t2) := by
  induction c with
  | nil => exact List.Lex.rel h
  | cons a c ih => exact List.Lex.cons ih

/-- Pre-order precedence is asymmetric. -/
theorem rlt_asymm {a b : RPath} (h1 : rlt a b) (h2 : rlt b a) : False := by
  rw [rlt] at h1 h2
  exact IsAsymm.asymm _ _ h1 h2

/-- Pre-order precedence is irreflexive. -/
theorem rlt_irrefl (a : RPath) (h : rlt a a) : False :=
  rlt_asymm h h

/-- A node precedes each of its proper descendants. -/
theorem rlt_desc (p r : RPath) (hr : r ≠ []) : rlt p (r ++ p) := by
  rw [rlt, List.reverse_append]
  cases hrr : r.reverse with
  | nil => exact absurd (by simpa using hrr) hr
  | cons b tl => exact lex_append_lt b

/-- A node (or any of its descendants) precedes a later sibling of that
node. -/
theorem rlt_sib (rr pp : RPath) (i j : Nat) (h : i < j) :
    rlt (rr ++ i :: pp) (j :: pp) := by
  rw [rlt]
  have h1 : (rr ++ i :: pp).reverse = pp.reverse ++ i :: rr.reverse := by
    simp [List.reverse_append, List.append_assoc]
  have h2 : (j :: pp).reverse = pp.reverse ++ j :: ([] : List Nat) := by
    simp
  rw [h1, h2]
  exact lex_mid_lt _ _ _ h

/-- Pre-order listings are strictly sorted in pre-order precedence. -/
theorem pairwise_preT_aux : (∀ t, PtPair t) ∧ (∀ f, PfPair f) := by
  have h0 : PfPair DForest.nil := by
    intro p i
    rw [preKidsT]
    exact List.Pairwise.nil
  have hn : ∀ f, PfPair f → PtPair (DTree.node f) := by
    intro f hf p
    rw [preT, List.pairwise_cons]
    refine ⟨?_, hf p 0⟩
    intro q hq
    obtain ⟨k, c, r, hk, hr, rfl⟩ := (mem_preT_aux.2 f p 0 q).mp hq
    have hshape : r ++ ((0 + k) :: p) = (r ++ [0 + k]) ++ p := by
      simp [List.append_assoc]
    rw [hshape]
    exact rlt_desc p _ (by simp)
  have hc : ∀ t f, PtPair t → PfPair f → PfPair (DForest.cons t f) := by
    intro c f ht hf p i
    rw [preKidsT, List.pairwise_append]
    refine ⟨ht (i :: p), hf p (i + 1), ?_⟩
    intro a ha b hb
    obtain ⟨r1, rfl, -⟩ := (mem_preT_aux.1 c (i :: p) a).mp ha
    obtain ⟨k, c', r2, hk, -, rfl⟩ := (mem_preT_aux.2 f p (i + 1) b).mp hb
    rw [rlt]
    have h1 : (r1 ++ i :: p).reverse = p.reverse ++ i :: r1.reverse := by
      simp [List.reverse_append, List.append_assoc]
    have h2 : (r2 ++ (i + 1 + k) :: p).reverse = p.reverse ++ (i + 1 + k) :: r2.reverse := by
      simp [List.reverse_append, List.append_assoc]
    rw [h1, h2]
    exact lex_mid_lt _ _ _ (by omega)
  exact ⟨treeInd PtPair PfPair hn h0 hc, forestInd PtPair PfPair hn h0 hc⟩

/-- Pre-order listings have no duplicates. -/
theorem nodup_preT (p : RPath) (t : DTree) : (preT p t).Nodup := by
  have hp := pairwise_preT_aux.1 t p
  refine hp.imp ?_
  intro a b hab heq
  subst heq
  exact rlt_irrefl a hab

/-- In a strictly sorted list, two related members occur in order. -/
theorem pairwise_sublist {α : Type} {R : α → α → Prop}
    (hA : ∀ x y, R x y → R y x → False) :
    ∀ (l : List α) (a b : α), List.Pairwise R l → R a b → a ∈ l → b ∈ l →
      List.Sublist [a, b] l
  | [], a, _, _, _, ha, _ => absurd ha (List.not_mem_nil a)
  | x :: l, a, b, hp, hr, ha, hb => by
    rw [List.pairwise_cons] at hp
    rcases List.mem_cons.mp ha with rfl | ha'
    · have hbl : b ∈ l := by
        rcases List.mem_cons.mp hb with rfl | hb'
        · exact (hA _ _ hr hr).elim
        · exact hb'
      exact List.Sublist.cons₂ a (List.singleton_sublist.mpr hbl)
    · rcases List.mem_cons.mp hb with rfl | hb'
      · exact (hA a b hr (hp.1 a ha')).elim
      · exact List.Sublist.cons x (pairwise_sublist hA l a b hp.2 hr ha' hb')

/-- The listing of a non-empty sibling chain starts at its first child. -/
theorem preKidsT_head (p : RPath) (i : Nat) (c : DTree) (f : DForest) :
    (preKidsT p i (DForest.cons c f)).head? = some (i :: p) := by
  rw [preKidsT]
  cases hc : preT (i :: p) c with
  | nil => exact absurd hc (preT_ne_nil _ _)
  | cons y l =>
    have hy : y = i :: p := by
      have hh := preT_head (i :: p) c
      rw [hc] at hh
      simpa using hh
    subst hy
    simp

/-- Dropping the head of a list with a non-empty tail keeps the last
element. -/
theorem getLast?_cons_of_ne_nil {α : Type} (a : α) (l : List α) (h : l ≠ []) :
    (a :: l).getLast? = l.getLast? := by
  cases l with
  | nil => exact absurd rfl h
  | cons b l2 => exact List.getLast?_cons_cons

/-- The walker's successor function threads each pre-order block: inside
the global tree `T`, the block of a subtree is `snext`-chained and its
last element's successor is the climb from the block's root. -/
theorem chain_preT_aux (T : DTree) : (∀ t, PtChain T t) ∧ (∀ f, PfChain T f) := by
  have h0 : PfChain T DForest.nil := by
    intro p s i hp hk
    rw [preKidsT]
    exact ⟨List.chain'_nil, fun z hz => by simp at hz⟩
  have hn : ∀ f, PfChain T f → PtChain T (DTree.node f) := by
    intro f hf p hp
    cases f with
    | nil =>
      constructor
      · rw [preT, preKidsT]
        exact List.chain'_singleton p
      · intro z hz
        rw [preT, preKidsT] at hz
        have hz' : p = z := by simpa using hz
        subst hz'
        have h0get : (DTree.node DForest.nil).kids.get? 0 = none := rfl
        exact snext_of_nochild T p (childP_of_none T p _ hp h0get)
    | cons c f2 =>
      have hkids : ∀ k, (DTree.node (DForest.cons c f2)).kids.get? (0 + k)
          = (DForest.cons c f2).get? k := by
        intro k
        simp [DTree.kids]
      obtain ⟨hchainK, hlastK⟩ := hf p (DTree.node (DForest.cons c f2)) 0 hp hkids
      constructor
      · rw [preT, List.chain'_cons']
        refine ⟨?_, hchainK⟩
        intro y hy
        rw [preKidsT_head] at hy
        have hy' : 0 :: p = y := by simpa using hy
        subst hy'
        have h0get : (DTree.node (DForest.cons c f2)).kids.get? 0 = some c := rfl
        exact snext_of_child T p _ (childP_of_get0 T p _ c hp h0get)
      · intro z hz
        rw [preT] at hz
        have hne : preKidsT p 0 (DForest.cons c f2) ≠ [] := by
          rw [preKidsT]
          intro hemp
          exact preT_ne_nil (0 :: p) c (List.append_eq_nil.mp hemp).1
        rw [getLast?_cons_of_ne_nil p _ hne] at hz
        exact hlastK z hz
  have hc : ∀ t f, PtChain T t → PfChain T f → PfChain T (DForest.cons t f) := by
    intro c f htc hfc p s i hp hk
    have hgc : getR T (i :: p) = some c := by
      rw [getR_cons, hp]
      have hk0 := hk 0
      simpa [DForest.get?] using hk0
    obtain ⟨hchainC, hlastC⟩ := htc (i :: p) hgc
    have hk' : ∀ k, s.kids.get? (i + 1 + k) = f.get? k := by
      intro k
      have hkk := hk (k + 1)
      have harith : i + (k + 1) = i + 1 + k := by omega
      rw [harith] at hkk
      simpa [DForest.get?] using hkk
    obtain ⟨hchainF, hlastF⟩ := hfc p s (i + 1) hp hk'
    have hsib1 : s.kids.get? (i + 1) = f.get? 0 := by
      have hk1 := hk 1
      simpa [DForest.get?] using hk1
    constructor
    · rw [preKidsT, List.chain'_append]
      refine ⟨hchainC, hchainF, ?_⟩
      intro x hx y hy
      cases f with
      | nil =>
        rw [preKidsT] at hy
        simp at hy
      | cons c2 f2 =>
        rw [preKidsT_head] at hy
        have hy' : (i + 1) :: p = y := by simpa using hy
        subst hy'
        rw [hlastC x (Option.mem_def.mp hx)]
        have hs0 : s.kids.get? (i + 1) = some c2 := by
          rw [hsib1]
          rfl
        rw [afterDown, siblingP_of_get T p i s c2 hp hs0]
    · intro z hz
      rw [preKidsT] at hz
      cases f with
      | nil =>
        rw [preKidsT, List.append_nil] at hz
        rw [hlastC z hz]
        have hs0 : s.kids.get? (i + 1) = none := by
          rw [hsib1]
          rfl
        rw [afterDown, siblingP_of_none T p i s hp hs0]
        exact ascend_cons T i p
      | cons c2 f2 =>
        have hne : preKidsT p (i + 1) (DForest.cons c2 f2) ≠ [] := by
          rw [preKidsT]
          intro hemp
          exact preT_ne_nil _ _ (List.append_eq_nil.mp hemp).1
        rw [List.getLast?_append_of_ne_nil _ hne] at hz
        exact hlastF z hz
  exact ⟨treeInd (PtChain T) (PfChain T) hn h0 hc, forestInd (PtChain T) (PfChain T) hn h0 hc⟩

/-- The full pre-order listing is `snext`-chained and finishes the walk:
the successor of its last element is `none`. -/
theorem chain_preT_root (t : DTree) :
    List.Chain' (fun a b => snext t a = some b) (preT [] t)
  ∧ ∀ z, (preT [] t).getLast? = some z → snext t z = none := by
  have h := (chain_preT_aux t).1 t [] rfl
  refine ⟨h.1, fun z hz => ?_⟩
  rw [h.2 z hz]
  rfl

/-- Each child's pre-order block sits contiguously inside the sibling
chain's listing. -/
theorem preKidsT_block : ∀ f, PfBlock f := by
  have h0 : PfBlock DForest.nil := by
    intro p j k c hk
    simp [DForest.get?] at hk
  have hc : ∀ t f, PfBlock f → PfBlock (DForest.cons t f) := by
    intro c0 f hf p j k c hk
    cases k with
    | zero =>
      have hcc : c0 = c := by simpa [DForest.get?] using hk
      subst hcc
      refine ⟨[], preKidsT p (j + 1) f, ?_⟩
      rw [preKidsT]
      simp
    | succ k =>
      have hk' : f.get? k = some c := by simpa [DForest.get?] using hk
      obtain ⟨K1, K2, hK⟩ := hf p (j + 1) k c hk'
      refine ⟨preT (j :: p) c0 ++ K1, K2, ?_⟩
      rw [preKidsT, hK]
      have harith : j + (k + 1) = j + 1 + k := by omega
      rw [harith]
      simp [List.append_assoc]
  exact forestInd (fun _ => True) PfBlock (fun _ _ => trivial) h0 (fun t f _ hf => hc t f hf)

/-- The pre-order block of any valid node sits contiguously inside the
full pre-order listing. -/
theorem preT_block (T : DTree) : ∀ (p : RPath) (tp : DTree), getR T p = some tp →
    ∃ A B, preT [] T = A ++ preT p tp ++ B
  | [], tp, hp => by
    have hT : T = tp := by
      have hh : (some T : Option DTree) = some tp := hp
      simpa using hh
    subst hT
    exact ⟨[], [], by simp⟩
  | i :: q, tp, hp => by
    rw [getR_cons] at hp
    cases hq : getR T q with
    | none =>
      rw [hq] at hp
      simp at hp
    | some s =>
      rw [hq] at hp
      simp only [Option.some_bind] at hp
      obtain ⟨A', B', hAB⟩ := preT_block T q s hq
      cases s with
      | node fs =>
        have hget : fs.get? i = some tp := by simpa [DTree.kids] using hp
        obtain ⟨K1, K2, hK⟩ := preKidsT_block fs q 0 i tp hget
        refine ⟨A' ++ q :: K1, K2 ++ B', ?_⟩
        rw [hAB, preT, hK]
        have h0 : (0 : Nat) + i = i := by omega
        rw [h0]
        simp [List.append_assoc]

/-- The pre-order listing has exactly one entry per node. -/
theorem length_preT_aux : (∀ t, PtLen t) ∧ (∀ f, PfLen f) := by
  have h0 : PfLen DForest.nil := by
    intro p i
    rw [preKidsT, DForest.sizeT]
    rfl
  have hn : ∀ f, PfLen f → PtLen (DTree.node f) := by
    intro f hf p
    rw [preT, DTree.size]
    simp [hf p 0, Nat.add_comm]
  have hc : ∀ t f, PtLen t → PfLen f → PfLen (DForest.cons t f) := by
    intro t f ht hf p i
    rw [preKidsT, DForest.sizeT, List.length_append, ht (i :: p), hf p (i + 1)]
  exact ⟨treeInd PtLen PfLen hn h0 hc, forestInd PtLen PfLen hn h0 hc⟩

/-- An unpruned advance from a current node follows the successor
function. -/
theorem next_plain (t : DTree) (p : RPath) :
    NodeWalk.next t { node := some p, fin := false, skip_children := false }
      = match snext t p with
        | some x =>
          (some (Except.ok x), { node := some x, fin := false, skip_children := false })
        | none => (none, { node := none, fin := true, skip_children := false }) := by
  cases hcd : childP t p with
  | some c => simp [NodeWalk.next, snext, hcd]
  | none =>
    cases had : afterDown t p with
    | some s => simp [NodeWalk.next, snext, hcd, had]
    | none => simp [NodeWalk.next, snext, hcd, had]

/-- Running the walker from a current node along an `snext` chain yields
exactly the remainder of the chain (up to the available fuel). -/
theorem runWalk_chain (t : DTree) : ∀ (l2 : List RPath) (q : RPath),
    List.Chain' (fun a b => snext t a = some b) (q :: l2) →
    (∀ z, (q :: l2).getLast? = some z → snext t z = none) →
    ∀ fuel, runWalk t fuel { node := some q, fin := false, skip_children := false }
      = l2.take fuel
  | [], q, hch, hl, fuel => by
    have hq : snext t q = none := hl q rfl
    cases fuel with
    | zero => rfl
    | succ n =>
      rw [runWalk, next_plain, hq]
      simp
  | b :: l2, q, hch, hl, fuel => by
    rw [List.chain'_cons] at hch
    cases fuel with
    | zero => rfl
    | succ n =>
      rw [runWalk, next_plain, hch.1]
      have hl' : ∀ z, (b :: l2).getLast? = some z → snext t z = none := by
        intro z hz
        refine hl z ?_
        rw [List.getLast?_cons_cons]
        exact hz
      show b :: runWalk t n { node := some b, fin := false, skip_children := false }
          = (b :: l2).take (n + 1)
      rw [runWalk_chain t l2 b hch.2 hl' n]
      rfl

/-- Running the walker from the start yields a prefix of the pre-order
listing. -/
theorem runWalk_init (t : DTree) : ∀ fuel, runWalk t fuel initWalk = (preT [] t).take fuel
  | 0 => rfl
  | n + 1 => by
    have hstep : NodeWalk.next t initWalk
        = (some (Except.ok []),
            { node := some [], fin := false, skip_children := false }) := rfl
    rw [runWalk, hstep]
    have hch := (chain_preT_root t).1
    have hl := (chain_preT_root t).2
    cases ht : preT [] t with
    | nil => exact absurd ht (preT_ne_nil _ _)
    | cons y l2 =>
      have hy : y = [] := by
        have hh := preT_head [] t
        rw [ht] at hh
        simpa using hh.symm
      subst hy
      rw [ht] at hch hl
      show ([] : RPath) :: runWalk t n { node := some [], fin := false, skip_children := false }
          = (([] : RPath) :: l2).take (n + 1)
      rw [runWalk_chain t l2 [] hch hl n]
      rfl

/-- With fuel at least the number of nodes, the walk from the start is the
whole pre-order listing. -/
theorem runWalk_full (t : DTree) (k : Nat) :
    runWalk t (t.size + k) initWalk = preT [] t := by
  rw [runWalk_init]
  apply List.take_of_length_le
  rw [length_preT_aux.1 t []]
  omega

/-- A node is listed strictly before each of its proper descendants. -/
theorem preT_desc_sublist (t : DTree) (p r : RPath) (hr : r ≠ [])
    (hp : p ∈ preT [] t) (hq : r ++ p ∈ preT [] t) :
    List.Sublist [p, r ++ p] (preT [] t) :=
  pairwise_sublist (fun _ _ h1 h2 => rlt_asymm h1 h2) (preT [] t) p (r ++ p)
    (pairwise_preT_aux.1 t []) (rlt_desc p r hr) hp hq

/-- C1: iterating `NodeWalk` with `skip_children` never requested visits
every node reachable from the root by first-child/next-sibling links
exactly once, in pre-order: the yields are exactly the valid paths with no
duplicates, the first advance yields the root, every node is yielded
strictly before each of its proper descendants, and after the last
reachable node the iterator yields nothing more (any extra fuel adds no
yields). -/
theorem nodewalk_preorder_c1 (t : DTree) :
    (∀ q, q ∈ runWalk t t.size initWalk ↔ (getR t q).isSome = true)
  ∧ (runWalk t t.size initWalk).Nodup
  ∧ (runWalk t t.size initWalk).head? = some []
  ∧ (∀ p r, r ≠ [] → p ∈ runWalk t t.size initWalk →
      r ++ p ∈ runWalk t t.size initWalk →
      List.Sublist [p, r ++ p] (runWalk t t.size initWalk))
  ∧ ∀ k, runWalk t (t.size + k) initWalk = runWalk t t.size initWalk := by
  have hfull : runWalk t t.size initWalk = preT [] t := by
    have hh := runWalk_full t 0
    simpa using hh
  rw [hfull]
  refine ⟨mem_preT_root t, nodup_preT [] t, preT_head [] t, ?_, ?_⟩
  · intro p r hr hp hq
    exact preT_desc_sublist t p r hr hp hq
  · intro k
    exact runWalk_full t k

/-- Witness for C1 at the concrete example tree: the walk is the
pre-order listing root, first child, grandchild, second child, and the
root is yielded before its grandchild. -/
theorem nodewalk_preorder_c1_witness :
    ([0] : RPath) ∈ runWalk tEx tEx.size initWalk
  ∧ List.Sublist [[0], [0, 0]] (runWalk tEx tEx.size initWalk) :=
  ⟨((nodewalk_preorder_c1 tEx).1 [0]).mpr (by decide),
   (nodewalk_preorder_c1 tEx).2.2.2.1 [0] [0] (by decide) (by decide) (by decide)⟩

/-- Every tree has at least its root. -/
theorem tsize_pos (t : DTree) : 1 ≤ t.size := by
  cases t with
  | node f =>
    rw [DTree.size]
    omega

/-- An advance from a current node with pruning requested ignores the
children and follows the sibling/climb move. -/
theorem next_skip (t : DTree) (p : RPath) :
    NodeWalk.next t { node := some p, fin := false, skip_children := true }
      = match afterDown t p with
        | some s =>
          (some (Except.ok s), { node := some s, fin := false, skip_children := false })
        | none => (none, { node := none, fin := true, skip_children := false }) := by
  cases had : afterDown t p with
  | some s => simp [NodeWalk.next, had]
  | none => simp [NodeWalk.next, had]

/-- C2: requesting `skip_children` just after the walker yielded node `p`
clears the flag on the very next advance, guarantees that no proper
descendant of `p` is yielded in the remaining walk, while every later
sibling of `p` and every later sibling of each ancestor of `p` that exists
in the tree is still yielded. -/
theorem nodewalk_skip_c2 (t : DTree) (p : RPath) (h : (getR t p).isSome = true) :
    ((NodeWalk.next t (NodeWalk.skipChildren
        { node := some p, fin := false, skip_children := false })).2.skip_children = false)
  ∧ (∀ r, r ≠ [] →
      r ++ p ∉ runWalk t t.size (NodeWalk.skipChildren
        { node := some p, fin := false, skip_children := false }))
  ∧ (∀ rr i j pp, p = rr ++ i :: pp → i < j → (getR t (j :: pp)).isSome = true →
      j :: pp ∈ runWalk t t.size (NodeWalk.skipChildren
        { node := some p, fin := false, skip_children := false })) := by
  have hsc : NodeWalk.skipChildren { node := some p, fin := false, skip_children := false }
      = { node := some p, fin := false, skip_children := true } := rfl
  rw [hsc]
  obtain ⟨tp, htp⟩ := Option.isSome_iff_exists.mp h
  obtain ⟨A, B, hAB⟩ := preT_block t p tp htp
  have hbne : preT p tp ≠ [] := preT_ne_nil p tp
  obtain ⟨z, hbl⟩ := Option.isSome_iff_exists.mp (List.getLast?_isSome.mpr hbne)
  have hlastB := ((chain_preT_aux t).1 tp p htp).2 z hbl
  obtain ⟨n, hn⟩ : ∃ n, t.size = n + 1 := ⟨t.size - 1, by have := tsize_pos t; omega⟩
  have hrun : runWalk t t.size { node := some p, fin := false, skip_children := true }
      = B := by
    cases hB : B with
    | nil =>
      rw [hB, List.append_nil] at hAB
      have hzlast : (preT [] t).getLast? = some z := by
        rw [hAB, List.getLast?_append_of_ne_nil _ hbne]
        exact hbl
      have hnone := (chain_preT_root t).2 z hzlast
      rw [hlastB] at hnone
      rw [hn, runWalk, next_skip, hnone]
    | cons q0 l2 =>
      rw [hB] at hAB
      have hch := (chain_preT_root t).1
      rw [hAB] at hch
      obtain ⟨hch1, hchB, hlink⟩ := List.chain'_append.mp hch
      have hgl : (A ++ preT p tp).getLast? = some z := by
        rw [List.getLast?_append_of_ne_nil _ hbne]
        exact hbl
      have hlinkz : snext t z = some q0 :=
        hlink z (Option.mem_def.mpr hgl) q0 (Option.mem_def.mpr rfl)
      rw [hlastB] at hlinkz
      have hlB : ∀ z2, (q0 :: l2).getLast? = some z2 → snext t z2 = none := by
        intro z2 hz2
        apply (chain_preT_root t).2 z2
        rw [hAB, List.getLast?_append_of_ne_nil _ (List.cons_ne_nil q0 l2)]
        exact hz2
      have hlen : l2.length ≤ n := by
        have hl := length_preT_aux.1 t []
        rw [hAB] at hl
        simp [List.length_append] at hl
        have hbpos : 1 ≤ (preT p tp).length := List.length_pos.mpr hbne
        omega
      rw [hn, runWalk, next_skip, hlinkz]
      show q0 :: runWalk t n { node := some q0, fin := false, skip_children := false }
          = q0 :: l2
      rw [runWalk_chain t l2 q0 hchB hlB n, List.take_of_length_le hlen]
  refine ⟨?_, ?_, ?_⟩
  · rw [next_skip]
    cases afterDown t p <;> rfl
  · intro r hr hmem
    rw [hrun] at hmem
    have hmemG : r ++ p ∈ preT [] t := by
      rw [hAB]
      exact List.mem_append_right _ hmem
    have hvalid := (mem_preT_root t _).mp hmemG
    rw [getR_append, htp] at hvalid
    simp only [Option.some_bind] at hvalid
    have hinblock : r ++ p ∈ preT p tp := (mem_preT_aux.1 tp p _).mpr ⟨r, rfl, hvalid⟩
    have hnd := nodup_preT [] t
    rw [hAB] at hnd
    exact List.disjoint_of_nodup_append hnd (List.mem_append_right A hinblock) hmem
  · intro rr i j pp hpeq hij hvq
    rw [hrun]
    have hqmem : j :: pp ∈ preT [] t := (mem_preT_root t _).mpr hvq
    have hqnb : j :: pp ∉ preT p tp := by
      intro hin
      obtain ⟨r', hq', -⟩ := (mem_preT_aux.1 tp p _).mp hin
      rw [hpeq] at hq'
      have hlen2 := congrArg List.length hq'
      simp [List.length_append] at hlen2
      have hr0 : r' = [] := List.eq_nil_of_length_eq_zero (by omega)
      have hrr0 : rr = [] := List.eq_nil_of_length_eq_zero (by omega)
      rw [hr0, hrr0] at hq'
      simp at hq'
      omega
    have hrltpq : rlt p (j :: pp) := by
      rw [hpeq]
      exact rlt_sib rr pp i j hij
    have hqnA : j :: pp ∉ A := by
      intro hinA
      have hpw := pairwise_preT_aux.1 t []
      rw [hAB, List.append_assoc] at hpw
      obtain ⟨-, -, hcross⟩ := List.pairwise_append.mp hpw
      exact rlt_asymm hrltpq
        (hcross _ hinA p (List.mem_append_left _ (preT_mem_self p tp)))
    have hmemsplit : j :: pp ∈ A ++ preT p tp ++ B := by
      rw [← hAB]
      exact hqmem
    rcases List.mem_append.mp hmemsplit with hAb | hinB
    · rcases List.mem_append.mp hAb with hinA | hinb
      · exact absurd hinA hqnA
      · exact absurd hinb hqnb
    · exact hinB

/-- Witness for C2 at the concrete example tree: skipping after yielding
the first child suppresses its own child but still yields the second
child. -/
theorem nodewalk_skip_c2_witness :
    ([0, 0] : RPath) ∉ runWalk tEx tEx.size (NodeWalk.skipChildren
      { node := some [0], fin := false, skip_children := false })
  ∧ ([1] : RPath) ∈ runWalk tEx tEx.size (NodeWalk.skipChildren
      { node := some [0], fin := false, skip_children := false }) :=
  ⟨(nodewalk_skip_c2 tEx [0] (by decide)).2.1 [0] (by decide),
   (nodewalk_skip_c2 tEx [0] (by decide)).2.2 [] 0 1 [] rfl (by decide) (by decide)⟩
